import Mathlib

/-!
Verification of the preprocessing / training-orchestration core of
`molecule_optimizer/runner/semi_jtvae.py` (class `SemiJTVAEGeneratorPredictor`).

The chemistry collaborators (`fast_jtnn.MolTree`, `recover`, `assemble`) are
black boxes at the module boundary: they are modelled as an abstract
`decompose` function producing a tree of nodes (each node carrying a cluster
symbol, a ground-truth candidate label and a candidate list) or failing.
Python floats are modelled as rationals; a fallible operation returns
`Option`.

The file has two parts: first the definitions embedding the code, then the
theorems about them.
-/

namespace SemiJTVAE

universe u v w

/-- One node of a decomposed tree (`fast_jtnn.MolTreeNode` at the boundary
used by this module): `smiles` is the cluster symbol contributed to the
vocabulary, `label` the designated ground-truth assembly candidate set by
`recover`, `cands` the assembly-candidate list set by `assemble`. -/
structure TreeNode (σ : Type u) where
  smiles : σ
  label : σ
  cands : List σ
deriving DecidableEq, Repr

/-- A decomposed tree (`fast_jtnn.MolTree`): its ordered node sequence. -/
structure MolTree (σ : Type u) where
  nodes : List (TreeNode σ)
deriving DecidableEq, Repr

/-- `toolz.partition_all(n, xs)`: split `xs` into consecutive chunks of size
`n` (the last chunk may be shorter).  The code only calls it with `n = 5000`;
`n = 0` (a `partition_all` error in Python) is mapped to `[]`. -/
def listChunks {α : Type u} (n : Nat) : List α → List (List α)
  | [] => []
  | x :: xs =>
    if _h : n = 0 then []
    else List.take n (x :: xs) :: listChunks n (List.drop n (x :: xs))
termination_by xs => xs.length
decreasing_by
  simp only [List.length_drop, List.length_cons]
  omega

/-- The candidate fix-up loop of `_tensorize` (lines 89-91): for every node,
if its ground-truth `label` is not among its candidates, append it. -/
def fixCands {σ : Type u} [DecidableEq σ] (nodes : List (TreeNode σ)) :
    List (TreeNode σ) :=
  nodes.map fun n =>
    if n.label ∈ n.cands then n else { n with cands := n.cands ++ [n.label] }

/-- `_tensorize(smiles, assm)` (lines 83-97): decompose (MolTree construction
plus `recover`/`assemble`, a black-box `decompose` here), then — when `assm`
— force each node's ground-truth candidate into its candidate list.  Any
failure is swallowed and reported as `none` (Python returns `None`).  The
`del`-statements only release memory and carry no information. -/
def tensorize {α : Type u} {σ : Type v} [DecidableEq σ]
    (decompose : α → Option (MolTree σ)) (assm : Bool) (s : α) :
    Option (MolTree σ) :=
  match decompose s with
  | none => none
  | some t => some (if assm then ⟨fixCands t.nodes⟩ else t)

/-- The index extraction `(preprocessed != None).nonzero()[0]` (line 119):
the increasing list of positions of `l` holding a non-`None` entry. -/
def someIdxs {β : Type u} (l : List (Option β)) : List Nat :=
  (List.range l.length).filter fun i => (l.getD i none).isSome

/-- NumPy fancy indexing `preprocessed[processed_idxs]` (line 120) followed by
unwrapping the (all non-`None`) selected entries. -/
def selectAt {β : Type u} (l : List (Option β)) (idxs : List Nat) : List β :=
  idxs.filterMap fun i => l.getD i none

/-- `preprocess(list_smiles)` (lines 100-121): chunked parallel `_tensorize`
fan-out gathered in submission order, then the failure entries are filtered
out and the surviving original positions recorded. -/
def preprocess {α : Type u} {β : Type v} (tens : α → Option β) (xs : List α) :
    List β × List Nat :=
  let preprocessed := ((listChunks 5000 xs).map (List.map tens)).flatten
  let processedIdxs := someIdxs preprocessed
  let processedSmiles := selectAt preprocessed processedIdxs
  (processedSmiles, processedIdxs)

/-- `get_processed_labels(labels)` (lines 123-124): NumPy fancy indexing
`labels[processed_idxs]`; an out-of-range position raises in NumPy, so the
operation is all-or-nothing. -/
def getProcessedLabels {γ : Type u} (labels : List γ) : List Nat → Option (List γ)
  | [] => some []
  | j :: rest =>
    match labels[j]?, getProcessedLabels labels rest with
    | some x, some l => some (x :: l)
    | _, _ => none

/-- The KL-annealing configuration of the training loops (`max_beta`,
`step_beta`, `anneal_iter`, `kl_anneal_iter`). -/
structure BetaCfg where
  maxBeta : ℚ
  stepBeta : ℚ
  annealIter : Nat
  klAnnealIter : Nat
deriving DecidableEq, Repr

/-- The beta slice of the training-loop state: the current KL weight and the
`total_step` counter. -/
structure BetaState where
  beta : ℚ
  step : Nat
deriving DecidableEq, Repr

/-- One training step's effect on `beta` (lines 293 and 385-389, identically
594-598): the step counter increments at the top of the loop, and at its end
`beta` is bumped by `step_beta` and capped at `max_beta` exactly when the new
counter is a multiple of `kl_anneal_iter` and has reached `anneal_iter`. -/
def betaStep (c : BetaCfg) (s : BetaState) : BetaState :=
  if (s.step + 1) % c.klAnnealIter = 0 ∧ c.annealIter ≤ s.step + 1 then
    ⟨min c.maxBeta (s.beta + c.stepBeta), s.step + 1⟩
  else
    ⟨s.beta, s.step + 1⟩

/-- The beta schedule after `n` training steps. -/
def betaRun (c : BetaCfg) (s : BetaState) (n : Nat) : BetaState :=
  (betaStep c)^[n] s

/-- The combined per-step totals entering the alpha update (lines 327-330):
`loss` is the combined total loss, `predLoss` the labelled-branch prediction
loss. -/
structure StepLosses where
  loss : ℚ
  predLoss : ℚ
deriving DecidableEq, Repr

/-- The alpha slice of the training-loop state: the `next_alpha` variable and
the step counter. -/
structure AlphaState where
  nextAlpha : ℚ
  step : Nat
deriving DecidableEq, Repr

/-- What one loop iteration records about alpha: the alpha actually passed to
the model's forward calls, and the step's combined totals. -/
structure AlphaTrace where
  alphaUsed : ℚ
  losses : StepLosses
deriving DecidableEq, Repr

/-- One iteration of the inner training loop restricted to the alpha flow
(lines 293-338 and 514-547): `alpha = next_alpha` is read before the forward
passes, the forward passes (the black-box `fwd`, a function of the step
counter and of the alpha in use) produce the combined totals, and
`next_alpha = (loss.detach() / 4) / pred_loss.detach()` is stored for the
following iteration. -/
def alphaLoopStep (fwd : Nat → ℚ → StepLosses) (s : AlphaState) :
    AlphaState × AlphaTrace :=
  let alpha := s.nextAlpha
  let l := fwd (s.step + 1) alpha
  (⟨l.loss / 4 / l.predLoss, s.step + 1⟩, ⟨alpha, l⟩)

/-- Alpha-loop state after `n` iterations, starting from the configured
initial `alpha` (line 248 / 470 sets `next_alpha = alpha`). -/
def alphaRun (fwd : Nat → ℚ → StepLosses) (a0 : ℚ) : Nat → AlphaState
  | 0 => ⟨a0, 0⟩
  | n + 1 => (alphaLoopStep fwd (alphaRun fwd a0 n)).1

/-- The trace (alpha used, combined totals) of the `n+1`-st training step. -/
def alphaTraceAt (fwd : Nat → ℚ → StepLosses) (a0 : ℚ) (n : Nat) : AlphaTrace :=
  (alphaLoopStep fwd (alphaRun fwd a0 n)).2

/-- An unguarded float division modelled as a partial operation: the quotient
is a well-defined finite number only for a nonzero divisor. -/
def finiteDiv (a b : ℚ) : Option ℚ := if b = 0 then none else some (a / b)

/-- The alpha update of lines 338 / 547 as a partial value: the next alpha is
defined (finite) only when the step's prediction loss is nonzero. -/
def nextAlphaOf (l : StepLosses) : Option ℚ := finiteDiv (l.loss / 4) l.predLoss

/-- The observable initialization trace of a training run: whether the
fresh-initialization loop over parameters ran (1-dimensional parameters
zeroed, others Xavier-initialized), which checkpoint step was loaded (if
any), and how many learning-rate schedule ticks precede the first step. -/
structure InitTrace where
  freshInit : Bool
  loadedCheckpoint : Option Nat
  schedTicksBeforeFirstStep : Nat
deriving DecidableEq, Repr

/-- `train_gen_pred` initialization (lines 250-268, identically 472-490 in
`train_gen_pred_supervised`): the fresh-initialization loop always runs
(lines 250-254), the checkpoint-loading branch is guarded by the literal
condition `0 > 0` (line 256), and `scheduler.step()` is called once before
the first training step (line 268). -/
def trainGenPredInit (loadEpoch : Nat) : InitTrace :=
  { freshInit := true
    loadedCheckpoint := if 0 > 0 then some loadEpoch else none
    schedTicksBeforeFirstStep := 1 }

/-- A checkpoint write event: target path, and whether the payload is the
model `state_dict` alone (no optimizer or schedule state). -/
structure CheckpointEvent where
  path : String
  paramsOnly : Bool
deriving DecidableEq, Repr

/-- The checkpoint written by `train_gen_pred` at a global step (lines
375-379): `torch.save(self.vae.state_dict(), "saved" + "/model.iter-" +
str(total_step))` when `total_step % save_iter == 0`, else nothing. -/
def checkpointAtGen (saveIter step : Nat) : Option CheckpointEvent :=
  if step % saveIter = 0 then
    some ⟨"saved" ++ "/model.iter-" ++ toString step, true⟩
  else none

/-- The checkpoint written by `train_gen_pred_supervised` at a global step
(lines 584-588): the file name stem is `model0.iter-`. -/
def checkpointAtSupervised (saveIter step : Nat) : Option CheckpointEvent :=
  if step % saveIter = 0 then
    some ⟨"saved" ++ "/model0.iter-" ++ toString step, true⟩
  else none

/-- The ten-metric vector handled per step (loss, KL, MAE, word/topo/assm
losses, prediction loss, and three accuracies scaled by 100). -/
abbrev MetricVec := Fin 10 → ℚ

/-- Pointwise division of a metric vector by a batch or interval count. -/
def vecDivNat (v : MetricVec) (k : Nat) : MetricVec := fun i => v i / (k : ℚ)

/-- The meters slice of the training-loop state: the running-sum accumulator
(`meters = np.zeros(10)`) and the `total_step` counter. -/
structure MeterState where
  meters : MetricVec
  step : Nat

/-- One training step's effect on the meters (lines 293, 345-373): the step's
metric vector is added to the accumulator; when the incremented `total_step`
is a multiple of `print_iter` the accumulator is divided by `print_iter`,
the result printed (returned as the second component), and the accumulator
zeroed (`meters *= 0`). -/
def metersStep (k : Nat) (m : Nat → MetricVec) (s : MeterState) :
    MeterState × Option MetricVec :=
  if (s.step + 1) % k = 0 then
    (⟨0, s.step + 1⟩, some (vecDivNat (s.meters + m (s.step + 1)) k))
  else
    (⟨s.meters + m (s.step + 1), s.step + 1⟩, none)

/-- Meters state after `n` training steps. -/
def metersRun (k : Nat) (m : Nat → MetricVec) : Nat → MeterState → MeterState
  | 0, s => s
  | n + 1, s => (metersStep k m (metersRun k m n s)).1

/-- The evaluation loop `test_loop` (lines 144-206) restricted to its metric
accounting: a fresh local accumulator starts at zero, one vector is summed
per batch, and the result is divided by the number of batches seen. -/
def testLoopMeters (batches : List MetricVec) : MetricVec :=
  vecDivNat (batches.foldl (· + ·) 0) batches.length

/-- One training epoch followed by the end-of-epoch validation and test
evaluation passes (lines 289-427), restricted to the metric flow: the
evaluations run `test_loop` on their own local accumulators and return the
epoch-aggregated averages; the training accumulator is whatever the inner
batch loop left in it. -/
def epochThenEval (k : Nat) (m : Nat → MetricVec) (nBatches : Nat)
    (valBatches testBatches : List MetricVec) (s : MeterState) :
    MeterState × MetricVec × MetricVec :=
  (metersRun k m nBatches s, testLoopMeters valBatches,
    testLoopMeters testBatches)

/-- `_get_vocab(smiles)` (lines 52-57): decompose and return the cluster
symbols of the tree's nodes; on any decomposition failure return the empty
sequence — the worker never raises past the boundary. -/
def getVocab {α : Type u} {σ : Type v} (decompose : α → Option (MolTree σ))
    (s : α) : List σ :=
  match decompose s with
  | some t => t.nodes.map TreeNode.smiles
  | none => []

/-- `build_vocabulary(list_smiles)` (lines 60-81): chunked parallel fan-out
of `_get_vocab` gathered in order, flattened, and deduplicated
(`list(set(vocabs))`). -/
def buildVocabulary {α : Type u} {σ : Type v} [DecidableEq σ]
    (decompose : α → Option (MolTree σ)) (xs : List α) : List σ :=
  ((listChunks 5000 xs).map (List.map (getVocab decompose))).flatten.flatten.dedup

/-- Concrete per-step metric assignment for witnesses: at step `t` every
coordinate of the metric vector is `t`. -/
def metricsEx : Nat → MetricVec := fun t _ => (t : ℚ)

/-- Concrete annealing configuration for witnesses. -/
def betaCfgEx : BetaCfg := ⟨1, 1/2, 2, 2⟩

/-- Concrete initial beta state for witnesses. -/
def betaStateEx : BetaState := ⟨0, 0⟩

/-- Concrete decomposition for witnesses: position 1 fails, the others
decompose to a one-node tree whose ground-truth label `7` is missing from its
candidate list `[9]`. -/
def decomposeEx : Nat → Option (MolTree Nat) := fun n =>
  if n = 1 then none else some ⟨[⟨n, 7, [9]⟩]⟩

/-- Concrete worker function for witnesses: the structure at position 1 fails
to decompose. -/
def tensEx : Nat → Option Nat := fun n => if n = 1 then none else some n

/-- Concrete raw-structure list for witnesses (three structures). -/
def xsEx : List Nat := [0, 1, 2]

/-- Concrete label array for witnesses. -/
def labelsEx : List Int := [10, 20, 30]

end SemiJTVAE

namespace SemiJTVAE

theorem listChunks_nil {α : Type u} (n : Nat) : listChunks (α := α) n [] = [] := by
  simp [listChunks]

theorem listChunks_cons {α : Type u} (n : Nat) (hn : n ≠ 0) (x : α) (xs : List α) :
    listChunks n (x :: xs) =
      List.take n (x :: xs) :: listChunks n (List.drop n (x :: xs)) := by
  rw [listChunks]
  simp [hn]

/-- Reassembling the chunks in submission order recovers the input list:
the chunked worker-pool fan-out preserves order. -/
theorem listChunks_join {α : Type u} (n : Nat) (hn : n ≠ 0) (xs : List α) :
    (listChunks n xs).flatten = xs := by
  generalize hL : xs.length = L
  induction L using Nat.strong_induction_on generalizing xs with
  | _ L ih =>
    cases xs with
    | nil => simp [listChunks_nil]
    | cons x xs =>
      rw [listChunks_cons n hn]
      have hdrop : (List.drop n (x :: xs)).length < (x :: xs).length := by
        simp only [List.length_drop, List.length_cons]
        omega
      rw [List.flatten_cons, ih (List.drop n (x :: xs)).length (hL ▸ hdrop) _ rfl,
        List.take_append_drop]

/-- Mapping a worker function over each chunk and flattening in order is the
same as mapping over the whole input. -/
theorem listChunks_map_join {α : Type u} {β : Type v} (n : Nat) (hn : n ≠ 0)
    (f : α → β) (xs : List α) :
    ((listChunks n xs).map (List.map f)).flatten = xs.map f := by
  rw [← List.map_flatten, listChunks_join n hn]

theorem mem_someIdxs {β : Type u} {l : List (Option β)} {j : Nat} :
    j ∈ someIdxs l ↔ j < l.length ∧ (l.getD j none).isSome := by
  simp [someIdxs, List.mem_filter, List.mem_range]

theorem someIdxs_pairwise {β : Type u} (l : List (Option β)) :
    (someIdxs l).Pairwise (· < ·) :=
  (List.pairwise_lt_range l.length).filter _

theorem someIdxs_length_le {β : Type u} (l : List (Option β)) :
    (someIdxs l).length ≤ l.length := by
  calc (someIdxs l).length ≤ (List.range l.length).length :=
        List.length_filter_le _ _
    _ = l.length := List.length_range l.length

theorem filterMap_total_length {β : Type v} (f : Nat → Option β) :
    ∀ idxs : List Nat, (∀ j ∈ idxs, (f j).isSome) →
      (idxs.filterMap f).length = idxs.length
  | [], _ => rfl
  | j :: rest, h => by
    have hj : (f j).isSome := h j (List.mem_cons_self j rest)
    obtain ⟨b, hb⟩ := Option.isSome_iff_exists.mp hj
    have ih := filterMap_total_length f rest fun i hi =>
      h i (List.mem_cons_of_mem j hi)
    simp [List.filterMap_cons, hb, ih]

theorem filterMap_total_getD {β : Type v} [Inhabited β] (f : Nat → Option β) :
    ∀ idxs : List Nat, (∀ j ∈ idxs, (f j).isSome) →
      ∀ i, i < idxs.length →
        f (idxs.getD i 0) = some ((idxs.filterMap f).getD i default)
  | [], _, i, hi => absurd hi (by simp)
  | j :: rest, h, i, hi => by
    have hj : (f j).isSome := h j (List.mem_cons_self j rest)
    obtain ⟨b, hb⟩ := Option.isSome_iff_exists.mp hj
    cases i with
    | zero => simp [List.filterMap_cons, hb]
    | succ i =>
      have ih := filterMap_total_getD f rest
        (fun m hm => h m (List.mem_cons_of_mem j hm)) i
        (by simpa using Nat.lt_of_succ_lt_succ hi)
      simpa [List.filterMap_cons, hb] using ih

theorem getD_map_of_lt {α : Type u} {β : Type v} [Inhabited α]
    (f : α → Option β) (xs : List α) (j : Nat) (hj : j < xs.length) :
    (xs.map f).getD j none = f (xs.getD j default) := by
  simp [List.getD_eq_getElem?_getD, List.getElem?_map, List.getElem?_eq_getElem hj]

/-- Unfolding `preprocess` over the order-preserving chunked fan-out. -/
theorem preprocess_eq {α : Type u} {β : Type v} (tens : α → Option β)
    (xs : List α) :
    preprocess tens xs =
      (selectAt (xs.map tens) (someIdxs (xs.map tens)),
        someIdxs (xs.map tens)) := by
  unfold preprocess
  rw [listChunks_map_join 5000 (by omega)]

/-- C1: for every input list of raw structures of length `N`, `preprocess`
returns `(processed, index_map)` with `len(processed) = len(index_map) ≤ N`,
`index_map` strictly increasing with every entry in `[0, N)`, and
`processed[i]` the successful decomposition of the raw structure at original
position `index_map[i]`. -/
theorem preprocess_index_map_spec {α : Type u} {β : Type v}
    [Inhabited α] [Inhabited β] (tens : α → Option β) (xs : List α) :
    (preprocess tens xs).1.length = (preprocess tens xs).2.length ∧
    (preprocess tens xs).2.length ≤ xs.length ∧
    (preprocess tens xs).2.Pairwise (· < ·) ∧
    (∀ j ∈ (preprocess tens xs).2, j < xs.length) ∧
    ∀ i, i < (preprocess tens xs).2.length →
      tens (xs.getD ((preprocess tens xs).2.getD i 0) default) =
        some ((preprocess tens xs).1.getD i default) := by
  rw [preprocess_eq]
  have hmem : ∀ j ∈ someIdxs (xs.map tens), ((xs.map tens).getD j none).isSome :=
    fun j hj => (mem_someIdxs.mp hj).2
  have hlt : ∀ j ∈ someIdxs (xs.map tens), j < xs.length := by
    intro j hj
    have h := (mem_someIdxs.mp hj).1
    simpa using h
  refine ⟨filterMap_total_length _ _ hmem, ?_, someIdxs_pairwise _, hlt, ?_⟩
  · have h := someIdxs_length_le (xs.map tens)
    simpa using h
  · intro i hi
    have hget := filterMap_total_getD (fun j => (xs.map tens).getD j none)
      (someIdxs (xs.map tens)) hmem i hi
    have hjmem : (someIdxs (xs.map tens)).getD i 0 ∈ someIdxs (xs.map tens) := by
      rw [List.getD_eq_getElem _ _ hi]
      exact List.getElem_mem hi
    have hjlt : (someIdxs (xs.map tens)).getD i 0 < xs.length := hlt _ hjmem
    rw [← getD_map_of_lt tens xs _ hjlt]
    exact hget

/-- Concrete evaluation of `preprocess` on the three-structure scenario of the
spec: the structure at original position 1 fails decomposition. -/
theorem preprocess_tensEx_eval : preprocess tensEx xsEx = ([0, 2], [0, 2]) := by
  rw [preprocess_eq]
  rfl

/-- Witness for C1 on the spec scenario: 3 raw structures, position 1 fails,
`index_map = [0, 2]` and `processed` has length 2. -/
theorem preprocess_index_map_spec_witness :
    0 < (preprocess tensEx xsEx).2.length ∧
    tensEx (xsEx.getD ((preprocess tensEx xsEx).2.getD 0 0) default) =
      some ((preprocess tensEx xsEx).1.getD 0 default) ∧
    (preprocess tensEx xsEx).2 = [0, 2] ∧
    (preprocess tensEx xsEx).1.length = 2 :=
  ⟨by rw [preprocess_tensEx_eval]; decide,
    (preprocess_index_map_spec tensEx xsEx).2.2.2.2 0
      (by rw [preprocess_tensEx_eval]; decide),
    by rw [preprocess_tensEx_eval],
    by rw [preprocess_tensEx_eval]; rfl⟩

theorem getProcessedLabels_total {γ : Type u} (labels : List γ) :
    ∀ idxs : List Nat, (∀ j ∈ idxs, j < labels.length) →
      ∃ res, getProcessedLabels labels idxs = some res ∧
        res.length = idxs.length ∧
        ∀ i, i < idxs.length → res[i]? = labels[idxs.getD i 0]?
  | [], _ => ⟨[], rfl, rfl, fun i hi => absurd hi (by simp)⟩
  | j :: rest, h => by
    have hj : j < labels.length := h j (List.mem_cons_self j rest)
    obtain ⟨res, hres, hlen, hid⟩ := getProcessedLabels_total labels rest
      (fun m hm => h m (List.mem_cons_of_mem j hm))
    refine ⟨labels[j] :: res, ?_, by simp [hlen], ?_⟩
    · simp [getProcessedLabels, List.getElem?_eq_getElem hj, hres]
    · intro i hi
      cases i with
      | zero => simp [List.getD_cons_zero, List.getElem?_eq_getElem hj]
      | succ i =>
        simp only [List.getD_cons_succ, List.getElem?_cons_succ]
        exact hid i (by simpa using Nat.lt_of_succ_lt_succ hi)

/-- C2: for every label array whose length equals the original dataset size,
`get_processed_labels` after `preprocess` succeeds and returns a sequence of
length `len(index_map)` with `result[i] = labels[index_map[i]]` for all `i`. -/
theorem get_processed_labels_spec {α : Type u} {β : Type v} {γ : Type w}
    (tens : α → Option β) (xs : List α) (labels : List γ)
    (h : labels.length = xs.length) :
    ∃ res, getProcessedLabels labels (preprocess tens xs).2 = some res ∧
      res.length = (preprocess tens xs).2.length ∧
      ∀ i, i < (preprocess tens xs).2.length →
        res[i]? = labels[(preprocess tens xs).2.getD i 0]? := by
  rw [preprocess_eq]
  apply getProcessedLabels_total
  intro j hj
  have hlen := (mem_someIdxs.mp hj).1
  rw [h]
  simpa using hlen

/-- Witness for C2: three labels, the structure at position 1 fails, the
re-indexed labels are those at positions 0 and 2. -/
theorem get_processed_labels_spec_witness :
    labelsEx.length = xsEx.length ∧
    ∃ res, getProcessedLabels labelsEx (preprocess tensEx xsEx).2 = some res ∧
      res.length = (preprocess tensEx xsEx).2.length ∧
      ∀ i, i < (preprocess tensEx xsEx).2.length →
        res[i]? = labelsEx[(preprocess tensEx xsEx).2.getD i 0]? :=
  ⟨by decide, get_processed_labels_spec tensEx xsEx labelsEx (by decide)⟩

theorem fixCands_label_mem {σ : Type u} [DecidableEq σ]
    (nodes : List (TreeNode σ)) :
    ∀ n ∈ fixCands nodes, n.label ∈ n.cands := by
  intro n hn
  rw [fixCands, List.mem_map] at hn
  obtain ⟨m, _, rfl⟩ := hn
  by_cases h : m.label ∈ m.cands
  · simp [h]
  · simp [h]

/-- C3: after preprocessing, every node of every successfully decomposed
structure has its designated ground-truth candidate (`label`) inside its own
assembly-candidate set (`cands`). -/
theorem ground_truth_in_cands {α : Type u} {σ : Type v} [DecidableEq σ]
    (decompose : α → Option (MolTree σ)) (xs : List α) :
    ∀ t ∈ (preprocess (tensorize decompose true) xs).1,
      ∀ n ∈ t.nodes, n.label ∈ n.cands := by
  intro t ht
  rw [preprocess_eq] at ht
  simp only [selectAt] at ht
  obtain ⟨j, hj, hget⟩ := List.mem_filterMap.mp ht
  have hsome : some t ∈ xs.map (tensorize decompose true) := by
    rw [List.getD_eq_getElem?_getD] at hget
    rcases hx : (xs.map (tensorize decompose true))[j]? with _ | o
    · rw [hx] at hget
      simp at hget
    · rw [hx] at hget
      simp only [Option.getD_some] at hget
      subst hget
      exact List.getElem?_mem hx
  obtain ⟨a, _, ha⟩ := List.mem_map.mp hsome
  unfold tensorize at ha
  cases hda : decompose a with
  | none => rw [hda] at ha; simp at ha
  | some t0 =>
    rw [hda] at ha
    simp only [if_true, Option.some.injEq] at ha
    rw [← ha]
    intro n hn
    exact fixCands_label_mem t0.nodes n hn

/-- Witness for C3: one structure decomposing to a single node whose ground
truth `7` was excluded from the enumerated candidates `[9]`; after
preprocessing the candidate list is `[9, 7]` and contains the label. -/
theorem ground_truth_in_cands_witness :
    (⟨[⟨0, 7, [9, 7]⟩]⟩ : MolTree Nat) ∈
      (preprocess (tensorize decomposeEx true) [0]).1 ∧
    (7 : Nat) ∈ [9, 7] := by
  have hmem : (⟨[⟨0, 7, [9, 7]⟩]⟩ : MolTree Nat) ∈
      (preprocess (tensorize decomposeEx true) [0]).1 := by
    rw [preprocess_eq]
    decide
  exact ⟨hmem,
    ground_truth_in_cands decomposeEx [0] _ hmem ⟨0, 7, [9, 7]⟩ (by decide)⟩

theorem betaRun_succ (c : BetaCfg) (s : BetaState) (n : Nat) :
    betaRun c s (n + 1) = betaStep c (betaRun c s n) :=
  Function.iterate_succ_apply' _ _ _

theorem betaStep_step (c : BetaCfg) (s : BetaState) :
    (betaStep c s).step = s.step + 1 := by
  unfold betaStep
  split <;> rfl

/-- The `total_step` counter advances by one per training step. -/
theorem betaRun_step (c : BetaCfg) (s : BetaState) (n : Nat) :
    (betaRun c s n).step = s.step + n := by
  induction n with
  | zero => rfl
  | succ n ih =>
    rw [betaRun_succ, betaStep_step, ih]
    omega

theorem betaRun_le (c : BetaCfg) (s : BetaState) (hb : s.beta ≤ c.maxBeta) :
    ∀ n, (betaRun c s n).beta ≤ c.maxBeta := by
  intro n
  induction n with
  | zero => exact hb
  | succ n ih =>
    rw [betaRun_succ]
    unfold betaStep
    split
    · exact min_le_left _ _
    · exact ih

/-- C4: throughout a run, `beta` never exceeds `max_beta`, is non-decreasing
step over step, and changes only at global steps that are multiples of
`kl_anneal_iter` and at least `anneal_iter`, each change adding `step_beta`
and capping at `max_beta`.  (The run starts with `beta ≤ max_beta` and a
non-negative `step_beta`, as the annealing configuration intends.) -/
theorem beta_schedule_spec (c : BetaCfg) (s : BetaState)
    (hb : s.beta ≤ c.maxBeta) (hs : 0 ≤ c.stepBeta) :
    ∀ n : Nat,
      (betaRun c s n).beta ≤ c.maxBeta ∧
      (betaRun c s n).beta ≤ (betaRun c s (n + 1)).beta ∧
      ((betaRun c s (n + 1)).beta ≠ (betaRun c s n).beta →
        ((betaRun c s n).step + 1) % c.klAnnealIter = 0 ∧
        c.annealIter ≤ (betaRun c s n).step + 1 ∧
        (betaRun c s (n + 1)).beta =
          min c.maxBeta ((betaRun c s n).beta + c.stepBeta)) := by
  intro n
  refine ⟨betaRun_le c s hb n, ?_, ?_⟩
  · rw [betaRun_succ]
    unfold betaStep
    split
    · exact le_min (betaRun_le c s hb n) (le_add_of_nonneg_right hs)
    · exact le_refl _
  · by_cases h : ((betaRun c s n).step + 1) % c.klAnnealIter = 0 ∧
        c.annealIter ≤ (betaRun c s n).step + 1
    · rw [betaRun_succ]
      unfold betaStep
      rw [if_pos h]
      intro _
      exact ⟨h.1, h.2, rfl⟩
    · rw [betaRun_succ]
      unfold betaStep
      rw [if_neg h]
      intro hne
      exact absurd rfl hne

/-- Witness for C4: the concrete annealing configuration
`max_beta = 1, step_beta = 1/2, anneal_iter = kl_anneal_iter = 2` starting at
`beta = 0`, checked after 2 steps. -/
theorem beta_schedule_spec_witness :
    betaStateEx.beta ≤ betaCfgEx.maxBeta ∧
    (0 : ℚ) ≤ betaCfgEx.stepBeta ∧
    (betaRun betaCfgEx betaStateEx 2).beta ≤ betaCfgEx.maxBeta ∧
    (betaRun betaCfgEx betaStateEx 2).beta ≤
      (betaRun betaCfgEx betaStateEx 3).beta :=
  ⟨by norm_num [betaStateEx, betaCfgEx], by norm_num [betaCfgEx],
    (beta_schedule_spec betaCfgEx betaStateEx
      (by norm_num [betaStateEx, betaCfgEx]) (by norm_num [betaCfgEx]) 2).1,
    (beta_schedule_spec betaCfgEx betaStateEx
      (by norm_num [betaStateEx, betaCfgEx]) (by norm_num [betaCfgEx]) 2).2.1⟩

/-- C5: in both training loops the alpha passed to the forward passes at step
`t+1` is `(total_loss_t / 4) / pred_loss_t` computed from step `t`'s combined
totals (a one-step lag), and the alpha used at the very first step is the
configured initial alpha. -/
theorem alpha_one_step_lag (fwd : Nat → ℚ → StepLosses) (a0 : ℚ) :
    (alphaTraceAt fwd a0 0).alphaUsed = a0 ∧
    ∀ t : Nat,
      (alphaTraceAt fwd a0 (t + 1)).alphaUsed =
        (alphaTraceAt fwd a0 t).losses.loss / 4 /
          (alphaTraceAt fwd a0 t).losses.predLoss :=
  ⟨rfl, fun _ => rfl⟩

/-- C10: the per-step alpha update has no guard — it is the bare quotient of
the detached totals — so the next alpha is a well-defined finite number
exactly when the step's prediction loss is nonzero, and for a zero prediction
loss the update is a division by zero; when defined it agrees with the value
the loop stores. -/
theorem alpha_update_division_guard (l : StepLosses) :
    (l.predLoss = 0 → nextAlphaOf l = none) ∧
    (l.predLoss ≠ 0 → nextAlphaOf l = some (l.loss / 4 / l.predLoss)) ∧
    ∀ (fwd : Nat → ℚ → StepLosses) (a0 : ℚ) (t : Nat),
      (alphaTraceAt fwd a0 t).losses.predLoss ≠ 0 →
        nextAlphaOf (alphaTraceAt fwd a0 t).losses =
          some ((alphaRun fwd a0 (t + 1)).nextAlpha) := by
  refine ⟨?_, ?_, ?_⟩
  · intro h
    simp [nextAlphaOf, finiteDiv, h]
  · intro h
    simp [nextAlphaOf, finiteDiv, h]
  · intro fwd a0 t h
    simp only [nextAlphaOf, finiteDiv, if_neg h]
    rfl

/-- Witness for C10: with total loss `4` the update is undefined at prediction
loss `0` and equals `1/2` at prediction loss `2`. -/
theorem alpha_update_division_guard_witness :
    nextAlphaOf ⟨4, 0⟩ = none ∧ nextAlphaOf ⟨4, 2⟩ = some (1 / 2) :=
  ⟨(alpha_update_division_guard ⟨4, 0⟩).1 rfl,
    by rw [(alpha_update_division_guard ⟨4, 2⟩).2.1 (by norm_num)]; norm_num⟩

/-- C6 (code bug): at starting step 1 — a resume — `train_gen_pred` still
runs the fresh-initialization loop and loads no checkpoint, because the
loading branch is dead code behind the literal guard `0 > 0` (line 256);
only the single initial learning-rate schedule tick occurs as specified. -/
theorem train_init_never_loads :
    trainGenPredInit 1 =
      { freshInit := true, loadedCheckpoint := none,
        schedTicksBeforeFirstStep := 1 } := rfl

/-- C7 counterexample: in the supervised training mode, at `save_iter = 100`
and global step 100, the checkpoint is written under
`saved/model0.iter-100`, not under the claimed `<save_dir>/model.iter-100`. -/
theorem supervised_checkpoint_name_counterexample :
    (checkpointAtSupervised 100 100).map CheckpointEvent.path =
      some "saved/model0.iter-100" ∧
    "saved/model0.iter-100" ≠ "saved" ++ "/model.iter-" ++ toString 100 := by
  constructor
  · rfl
  · decide

/-- C7 (amended): in both training modes a parameters-only checkpoint is
written exactly at global steps that are multiples of `save_iter`;
`train_gen_pred` names it `saved/model.iter-<step>` while
`train_gen_pred_supervised` names it `saved/model0.iter-<step>`. -/
theorem checkpoint_write_spec (saveIter step : Nat) :
    (step % saveIter = 0 →
      checkpointAtGen saveIter step =
        some ⟨"saved" ++ "/model.iter-" ++ toString step, true⟩ ∧
      checkpointAtSupervised saveIter step =
        some ⟨"saved" ++ "/model0.iter-" ++ toString step, true⟩) ∧
    (step % saveIter ≠ 0 →
      checkpointAtGen saveIter step = none ∧
      checkpointAtSupervised saveIter step = none) := by
  constructor <;> intro h <;>
    simp [checkpointAtGen, checkpointAtSupervised, h]

/-- Witness for C7 (amended) at `save_iter = 100`, step 100. -/
theorem checkpoint_write_spec_witness :
    checkpointAtGen 100 100 = some ⟨"saved/model.iter-100", true⟩ ∧
    checkpointAtSupervised 100 100 = some ⟨"saved/model0.iter-100", true⟩ :=
  ⟨((checkpoint_write_spec 100 100).1 (by decide)).1.trans (by decide),
    ((checkpoint_write_spec 100 100).1 (by decide)).2.trans (by decide)⟩

theorem metersStep_mk (k : Nat) (m : Nat → MetricVec) (mv : MetricVec)
    (st : Nat) :
    metersStep k m ⟨mv, st⟩ =
      if (st + 1) % k = 0 then
        (⟨0, st + 1⟩, some (vecDivNat (mv + m (st + 1)) k))
      else
        (⟨mv + m (st + 1), st + 1⟩, none) := rfl

theorem metersRun_partial (k : Nat) (m : Nat → MetricVec) (s : MeterState)
    (hs : s.step % k = 0) (hm : s.meters = 0) :
    ∀ j, j < k → metersRun k m j s =
      ⟨∑ i in Finset.range j, m (s.step + 1 + i), s.step + j⟩ := by
  intro j
  induction j with
  | zero =>
    intro _
    obtain ⟨mv, st⟩ := s
    simp only at hm
    subst hm
    simp [metersRun, Finset.sum_range_zero]
  | succ j ih =>
    intro hj
    have hj' : j < k := lt_trans (Nat.lt_succ_self j) hj
    have ihj := ih hj'
    have hcond : (s.step + j + 1) % k ≠ 0 := by
      obtain ⟨q, hq⟩ := Nat.dvd_of_mod_eq_zero hs
      have hmod : (s.step + j + 1) % k = (j + 1) % k := by
        rw [hq]
        exact Nat.mul_add_mod k q (j + 1)
      rw [hmod, Nat.mod_eq_of_lt hj]
      omega
    show (metersStep k m (metersRun k m j s)).1 = _
    rw [ihj, metersStep_mk, if_neg hcond]
    have hidx : s.step + 1 + j = s.step + j + 1 := by omega
    rw [Finset.sum_range_succ, hidx]
    rfl

/-- C8 (amended): with `print_iter = k`, a starting step that is a multiple
of `k`, and a zeroed accumulator, after `k` consecutive training steps the
printed value equals the arithmetic mean of those `k` steps' metric vectors
and the accumulator is reset to all zeros afterwards; evaluation passes run
on their own fresh local accumulators and leave the training accumulator
unchanged. -/
theorem meters_print_mean_reset (k : Nat) (m : Nat → MetricVec)
    (s : MeterState) (hk : 0 < k) (hs : s.step % k = 0) (hm : s.meters = 0) :
    metersRun k m k s = ⟨0, s.step + k⟩ ∧
    (metersStep k m (metersRun k m (k - 1) s)).2 =
      some (vecDivNat (∑ i in Finset.range k, m (s.step + 1 + i)) k) ∧
    ∀ (nB : Nat) (valB testB : List MetricVec) (s' : MeterState),
      (epochThenEval k m nB valB testB s').1 = metersRun k m nB s' := by
  obtain ⟨j, rfl⟩ : ∃ j, k = j + 1 := ⟨k - 1, by omega⟩
  simp only [Nat.add_sub_cancel]
  have hpart := metersRun_partial (j + 1) m s hs hm j (by omega)
  have hcond : (s.step + j + 1) % (j + 1) = 0 := by
    have hidx : s.step + j + 1 = s.step + (j + 1) := by omega
    rw [hidx, Nat.add_mod_right]
    exact hs
  have hsum : ∑ i in Finset.range (j + 1), m (s.step + 1 + i) =
      (∑ i in Finset.range j, m (s.step + 1 + i)) + m (s.step + j + 1) := by
    rw [Finset.sum_range_succ]
    have hidx : s.step + 1 + j = s.step + j + 1 := by omega
    rw [hidx]
  refine ⟨?_, ?_, fun nB valB testB s' => rfl⟩
  · show (metersStep (j + 1) m (metersRun (j + 1) m j s)).1 = _
    rw [hpart, metersStep_mk, if_pos hcond]
    rfl
  · rw [hpart, metersStep_mk, if_pos hcond, hsum]

/-- Witness for C8 (amended): `print_iter = 2` from a fresh start; after two
steps the accumulator is back to all zeros at step 2. -/
theorem meters_print_mean_reset_witness :
    0 < 2 ∧ (⟨0, 0⟩ : MeterState).step % 2 = 0 ∧
    (⟨0, 0⟩ : MeterState).meters = 0 ∧
    metersRun 2 metricsEx 2 ⟨0, 0⟩ = ⟨0, (⟨0, 0⟩ : MeterState).step + 2⟩ :=
  ⟨by norm_num, rfl, rfl,
    (meters_print_mean_reset 2 metricsEx ⟨0, 0⟩ (by norm_num) rfl rfl).1⟩

/-- C8 counterexample: with `print_iter = 2`, after one training step whose
metric vector is all ones and then a full evaluation pass, coordinate 0 of
the training Meters accumulator is still `1`, not `0`: the evaluation pass
does not reset the accumulator to zero. -/
theorem meters_eval_no_reset_counterexample :
    (epochThenEval 2 (fun _ _ => 1) 1 [fun _ => 1] [fun _ => 1]
        ⟨0, 0⟩).1.meters 0 = 1 ∧ (1 : ℚ) ≠ 0 := by
  constructor
  · simp [epochThenEval, metersRun, metersStep]
  · norm_num

/-- Unfolding `build_vocabulary` over the order-preserving chunked fan-out. -/
theorem buildVocabulary_eq {α : Type u} {σ : Type v} [DecidableEq σ]
    (decompose : α → Option (MolTree σ)) (xs : List α) :
    buildVocabulary decompose xs =
      ((xs.map (getVocab decompose)).flatten).dedup := by
  unfold buildVocabulary
  rw [listChunks_map_join 5000 (by omega)]

/-- C9: the vocabulary returned by `build_vocabulary` has no duplicate
entries, every entry is a cluster symbol of some successfully decomposed
input structure, and a structure whose decomposition fails contributes the
empty symbol sequence — the failure never escapes the worker. -/
theorem build_vocabulary_spec {α : Type u} {σ : Type v} [DecidableEq σ]
    (decompose : α → Option (MolTree σ)) (xs : List α) :
    (buildVocabulary decompose xs).Nodup ∧
    (∀ v ∈ buildVocabulary decompose xs,
      ∃ s ∈ xs, ∃ t, decompose s = some t ∧ v ∈ t.nodes.map TreeNode.smiles) ∧
    ∀ s : α, decompose s = none → getVocab decompose s = [] := by
  refine ⟨?_, ?_, ?_⟩
  · rw [buildVocabulary_eq]
    exact List.nodup_dedup _
  · intro v hv
    rw [buildVocabulary_eq, List.mem_dedup] at hv
    obtain ⟨l, hl, hvl⟩ := List.mem_flatten.mp hv
    obtain ⟨s, hsx, rfl⟩ := List.mem_map.mp hl
    refine ⟨s, hsx, ?_⟩
    unfold getVocab at hvl
    cases hds : decompose s with
    | none =>
      rw [hds] at hvl
      simp at hvl
    | some t =>
      rw [hds] at hvl
      exact ⟨t, rfl, hvl⟩
  · intro s hs
    unfold getVocab
    rw [hs]

/-- Witness for C9: symbol `0` is in the vocabulary of the three-structure
example and traces back to the successfully decomposed structure `0`; the
failing structure `1` contributes the empty sequence. -/
theorem build_vocabulary_spec_witness :
    (0 : Nat) ∈ buildVocabulary decomposeEx xsEx ∧
    (∃ s ∈ xsEx, ∃ t, decomposeEx s = some t ∧
      (0 : Nat) ∈ t.nodes.map TreeNode.smiles) ∧
    decomposeEx 1 = none ∧ getVocab decomposeEx 1 = [] := by
  have h0 : (0 : Nat) ∈ buildVocabulary decomposeEx xsEx := by
    rw [buildVocabulary_eq]
    decide
  exact ⟨h0, (build_vocabulary_spec decomposeEx xsEx).2.1 0 h0, rfl,
    (build_vocabulary_spec decomposeEx xsEx).2.2 1 rfl⟩

end SemiJTVAE
